import Mathlib

/-!
Shallow embedding of the tsag anomaly-generation library (src/tsag/tsag.py).

A pandas Series of numeric values is modelled as a list of rationals with
positional indices 0..n-1.  Each transformation class's generate method
becomes a Lean function on such lists; the numpy random draws consumed by
PointAnomaly are passed in as an explicit stream of draw values.
-/

namespace Tsag

/-- Series values: a pandas Series of floats, modelled as a list of rationals. -/
abbrev Series := List ℚ

/-- Maximum of a series, as computed by pandas Series.max.  On an empty series
pandas returns NaN; the default value 0 used here is never observable in any
embedded operation, because every use site multiplies or adds it pointwise
into an empty list. -/
def seriesMax : Series → ℚ
  | [] => 0
  | x :: xs => xs.foldl max x

/-- Minimum of a series, as computed by pandas Series.min (see seriesMax for
the empty case). -/
def seriesMin : Series → ℚ
  | [] => 0
  | x :: xs => xs.foldl min x

/-- Position reached by a pandas positional slice bound i on a series of
length n: non-negative bounds count from the front (take and drop clamp at n
themselves), negative bounds count from the back and clamp at 0.  This is the
semantics of timeseries.iloc applied in BaseAnomaly.insert. -/
def sliceIdx (n : ℕ) (i : ℤ) : ℕ :=
  if 0 ≤ i then i.toNat else ((n : ℤ) + i).toNat

/-- BaseAnomaly.insert (tsag.py lines 18-27): with an index, concatenate
host.iloc[:index], the anomaly, and host.iloc[index:] with ignore_index=True
(indices reassigned from 0, which list append gives for free); with no index,
append the anomaly to the host. -/
def insert (host anomaly : Series) (index : Option ℤ) : Series :=
  match index with
  | some i => host.take (sliceIdx host.length i) ++ anomaly ++ host.drop (sliceIdx host.length i)
  | none => host ++ anomaly

/-- RangeShiftAnomaly.generate (tsag.py lines 82-84): pointwise multiply the
template by ratio. -/
def rangeShift_generate (t : Series) (ratio : ℚ) : Series :=
  t.map (fun x => x * ratio)

/-- AmplitudeShiftAnomaly.generate (tsag.py lines 99-104): add the constant
(max - min) * ratio to every element of the template. -/
def amplitudeShift_generate (t : Series) (ratio : ℚ) : Series :=
  t.map (fun x => x + (seriesMax t - seriesMin t) * ratio)

/-- The loop body of PointAnomaly.generate: n iterations, each appending the
pair [upper + draw, lower + draw] using the next two values of the noise
stream, exactly as the source appends point + np.random.normal(mu, sigma, 2)
per iteration. -/
def pointBlocks (upper lower : ℚ) (noise : ℕ → ℚ) (n : ℕ) : Series :=
  (List.range n).flatMap (fun i => [upper + noise (2 * i), lower + noise (2 * i + 1)])

/-- PointAnomaly.generate (tsag.py lines 129-141): mid = (max - min) * ratio,
upper = max + mid, lower = min - mid; loop for i in range(count) appending
one upper/lower pair per iteration.  Python range of a negative count is
empty, which Int.toNat mirrors.  The mu and sigma parameters only shape the
noise stream, which is passed in explicitly. -/
def pointAnomaly_generate (t : Series) (ratio : ℚ) (count : ℤ) (noise : ℕ → ℚ) : Series :=
  pointBlocks (seriesMax t + (seriesMax t - seriesMin t) * ratio)
    (seriesMin t - (seriesMax t - seriesMin t) * ratio) noise count.toNat

/-- Modelled from the spec: np.random.normal (numpy library code, not under
src) draws from Normal(mu, sigma); with sigma = 0 the distribution is the
point mass at mu, so every draw equals mu deterministically. -/
def normalDraws_sigmaZero (mu : ℚ) : ℕ → ℚ := fun _ => mu

/-- Every k-th element of a list starting at index 0, the semantics of the
pandas slice template.iloc[::k] (with reset_index giving contiguous
reindexing, which lists give for free). -/
def everyNth (k : ℕ) : Series → Series
  | [] => []
  | x :: xs => x :: everyNth k (xs.drop (k - 1))
termination_by l => l.length
decreasing_by
  simp only [List.length_drop, List.length_cons]
  omega

/-- FrequencyShiftAnomaly.generate (tsag.py lines 163-170): if 0 < ratio <= 1,
take every int(1/ratio)-th element (Python int truncates toward zero, which
equals the floor since 1/ratio >= 1 in this branch); otherwise raise
NotImplementedError. -/
def frequencyShift_generate (t : Series) (ratio : ℚ) : Except String Series :=
  if 0 < ratio ∧ ratio ≤ 1 then
    Except.ok (everyNth (⌊1 / ratio⌋.toNat) t)
  else
    Except.error "FrequencyShiftAnomaly ratio accepts only values between >0 and <=1."

/-- CompoundAnomaly.generate (tsag.py lines 189-193): starting from the
template (self.anomaly holds a copy of the template when generate runs),
apply each stage in order to the previous stage's output.  A stage denotes
the generate function of the listed anomaly class with its keyword
arguments already applied. -/
def compound_generate (t : Series) (stages : List (Series → Series)) : Series :=
  stages.foldl (fun current stage => stage current) t

theorem everyNth_nil (k : ℕ) : everyNth k [] = [] := by
  simp [everyNth]

theorem everyNth_cons (k : ℕ) (x : ℚ) (xs : List ℚ) :
    everyNth k (x :: xs) = x :: everyNth k (xs.drop (k - 1)) := by
  simp [everyNth]

theorem everyNth_length_aux (k : ℕ) (hk : 1 ≤ k) :
    ∀ (n : ℕ) (l : Series), l.length ≤ n →
      (everyNth k l).length = (l.length + (k - 1)) / k := by
  intro n
  induction n with
  | zero =>
    intro l hl
    have hnil : l = [] := List.eq_nil_of_length_eq_zero (Nat.le_zero.mp hl)
    subst hnil
    rw [everyNth_nil]
    simp only [List.length_nil, Nat.zero_add]
    exact (Nat.div_eq_of_lt (by omega)).symm
  | succ n ih =>
    intro l hl
    cases l with
    | nil =>
      rw [everyNth_nil]
      simp only [List.length_nil, Nat.zero_add]
      exact (Nat.div_eq_of_lt (by omega)).symm
    | cons x xs =>
      rw [everyNth_cons]
      have hlen : xs.length ≤ n := by
        simp only [List.length_cons] at hl
        omega
      have hih := ih (xs.drop (k - 1)) (by simp only [List.length_drop]; omega)
      simp only [List.length_cons, hih, List.length_drop]
      rcases le_or_lt (k - 1) xs.length with hc | hc
      · rw [Nat.sub_add_cancel hc]
        have h2 : xs.length + 1 + (k - 1) = xs.length + k := by omega
        rw [h2, Nat.add_div_right _ (by omega : 0 < k)]
      · have hz : xs.length - (k - 1) = 0 := by omega
        rw [hz, Nat.zero_add, Nat.div_eq_of_lt (by omega)]
        have h2 : xs.length + 1 + (k - 1) = xs.length + k := by omega
        rw [h2, Nat.add_div_right _ (by omega : 0 < k), Nat.div_eq_of_lt (by omega)]

theorem everyNth_length (k : ℕ) (hk : 1 ≤ k) (l : Series) :
    (everyNth k l).length = (l.length + (k - 1)) / k :=
  everyNth_length_aux k hk l.length l le_rfl

theorem everyNth_getElem_aux (k : ℕ) (hk : 1 ≤ k) :
    ∀ (n : ℕ) (l : Series), l.length ≤ n → ∀ i : ℕ, (everyNth k l)[i]? = l[i * k]? := by
  intro n
  induction n with
  | zero =>
    intro l hl i
    have hnil : l = [] := List.eq_nil_of_length_eq_zero (Nat.le_zero.mp hl)
    subst hnil
    rw [everyNth_nil]
    simp
  | succ n ih =>
    intro l hl i
    cases l with
    | nil =>
      rw [everyNth_nil]
      simp
    | cons x xs =>
      rw [everyNth_cons]
      cases i with
      | zero => simp
      | succ j =>
        have hlen : xs.length ≤ n := by
          simp only [List.length_cons] at hl
          omega
        have hih := ih (xs.drop (k - 1)) (by simp only [List.length_drop]; omega) j
        simp only [List.getElem?_cons_succ]
        rw [hih, List.getElem?_drop]
        have harith : (j + 1) * k = (k - 1 + j * k) + 1 := by
          obtain ⟨m, rfl⟩ := Nat.exists_eq_add_of_le hk
          simp only [Nat.add_sub_cancel_left]
          ring
        rw [harith, List.getElem?_cons_succ]

theorem everyNth_getElem (k : ℕ) (hk : 1 ≤ k) (l : Series) (i : ℕ) :
    (everyNth k l)[i]? = l[i * k]? :=
  everyNth_getElem_aux k hk l.length l le_rfl i

theorem everyNth_one (l : Series) : everyNth 1 l = l := by
  induction l with
  | nil => rw [everyNth_nil]
  | cons x xs ihx =>
    rw [everyNth_cons]
    simpa using ihx

theorem pointBlocks_succ (u v : ℚ) (noise : ℕ → ℚ) (m : ℕ) :
    pointBlocks u v noise (m + 1) =
      pointBlocks u v noise m ++ [u + noise (2 * m), v + noise (2 * m + 1)] := by
  simp [pointBlocks, List.range_succ]

theorem pointBlocks_length (u v : ℚ) (noise : ℕ → ℚ) (n : ℕ) :
    (pointBlocks u v noise n).length = 2 * n := by
  induction n with
  | zero => rfl
  | succ m ih =>
    rw [pointBlocks_succ, List.length_append, ih]
    simp only [List.length_cons, List.length_nil]
    omega

theorem pointBlocks_getElem (u v : ℚ) (noise : ℕ → ℚ) (n : ℕ) :
    ∀ i : ℕ, i < n →
      (pointBlocks u v noise n)[2 * i]? = some (u + noise (2 * i)) ∧
      (pointBlocks u v noise n)[2 * i + 1]? = some (v + noise (2 * i + 1)) := by
  induction n with
  | zero =>
    intro i hi
    exact absurd hi (Nat.not_lt_zero i)
  | succ m ih =>
    intro i hi
    rw [pointBlocks_succ]
    rcases Nat.lt_or_ge i m with him | him
    · have hlen : 2 * i + 1 < (pointBlocks u v noise m).length := by
        rw [pointBlocks_length]
        omega
      constructor
      · rw [List.getElem?_append_left (by omega), (ih i him).1]
      · rw [List.getElem?_append_left hlen, (ih i him).2]
    · have hieq : i = m := by omega
      subst hieq
      have hlen : (pointBlocks u v noise i).length = 2 * i := pointBlocks_length u v noise i
      constructor
      · rw [List.getElem?_append_right (by omega), hlen]
        simp
      · rw [List.getElem?_append_right (by omega), hlen]
        simp

/-- C9: RangeShiftAnomaly generation multiplies every element of the template
by the ratio (any rational, negative included) and preserves the length. -/
theorem c9_rangeShift_scale (t : Series) (r : ℚ) :
    (rangeShift_generate t r).length = t.length ∧
    ∀ i : ℕ, (rangeShift_generate t r)[i]? = t[i]?.map (fun x => x * r) := by
  exact ⟨by simp [rangeShift_generate], fun i => by simp [rangeShift_generate]⟩

/-- C3: CompoundAnomaly generation is the left-to-right fold of the stages:
the empty pipeline is the identity, a two-stage pipeline composes the stages,
a cons peels off the first stage, and an appended pipeline runs the second
part on the first part's output. -/
theorem c3_compound_fold (t : Series) (A B : Series → Series) :
    compound_generate t [] = t ∧
    compound_generate t [A, B] = B (A t) ∧
    (∀ (f : Series → Series) (rest : List (Series → Series)),
      compound_generate t (f :: rest) = compound_generate (f t) rest) ∧
    (∀ s1 s2 : List (Series → Series),
      compound_generate t (s1 ++ s2) = compound_generate (compound_generate t s1) s2) := by
  refine ⟨rfl, rfl, fun f rest => rfl, fun s1 s2 => ?_⟩
  simp [compound_generate, List.foldl_append]

/-- C8: FrequencyShiftAnomaly generation raises exactly when the ratio is
outside the half-open interval (0, 1]. -/
theorem c8_frequencyShift_reject_iff (t : Series) (r : ℚ) :
    (∃ msg, frequencyShift_generate t r = Except.error msg) ↔ (r ≤ 0 ∨ 1 < r) := by
  by_cases h : 0 < r ∧ r ≤ 1
  · simp only [frequencyShift_generate, if_pos h]
    constructor
    · rintro ⟨msg, hmsg⟩
      exact absurd hmsg (by simp)
    · rintro (h1 | h1)
      · exact absurd h.1 (not_lt.mpr h1)
      · exact absurd h.2 (not_le.mpr h1)
  · simp only [frequencyShift_generate, if_neg h]
    push_neg at h
    constructor
    · intro _
      rcases le_or_lt r 0 with h1 | h1
      · exact Or.inl h1
      · exact Or.inr (h h1)
    · intro _
      exact ⟨_, rfl⟩

/-- C4: with an in-range index, insert splices the anomaly between the first
i host elements and the rest: nothing is overwritten, the length is the sum,
the first i elements and the middle segment are preserved, and with no index
insert is a pure append. -/
theorem c4_insert_splice (host anomaly : Series) (i : ℤ)
    (h0 : 0 ≤ i) (h1 : i ≤ host.length) :
    insert host anomaly (some i) =
      host.take i.toNat ++ anomaly ++ host.drop i.toNat ∧
    (insert host anomaly (some i)).length = host.length + anomaly.length ∧
    (insert host anomaly (some i)).take i.toNat = host.take i.toNat ∧
    ((insert host anomaly (some i)).drop i.toNat).take anomaly.length = anomaly ∧
    insert host anomaly none = host ++ anomaly := by
  have hs : sliceIdx host.length i = i.toNat := by simp [sliceIdx, h0]
  have hle : i.toNat ≤ host.length := by omega
  have hrep : insert host anomaly (some i) =
      host.take i.toNat ++ anomaly ++ host.drop i.toNat := by
    simp [insert, hs]
  have hAlen : (host.take i.toNat).length = i.toNat := by
    rw [List.length_take]
    omega
  refine ⟨hrep, ?_, ?_, ?_, rfl⟩
  · rw [hrep]
    simp only [List.length_append, List.length_take, List.length_drop]
    omega
  · rw [hrep, List.append_assoc]
    exact List.take_left' hAlen
  · rw [hrep, List.append_assoc, List.drop_left' hAlen]
    exact List.take_left _ _

/-- C5 (amended): an out-of-range index never raises; pandas slice semantics
silently clamp.  An index above the host length appends the anomaly at the
end, and a negative index splices at position length + index (clamped at 0
when below -length). -/
theorem c5_insert_out_of_range (host anomaly : Series) (i : ℤ) :
    ((host.length : ℤ) < i → insert host anomaly (some i) = host ++ anomaly) ∧
    (i < 0 → insert host anomaly (some i) =
      host.take ((host.length : ℤ) + i).toNat ++ anomaly ++
        host.drop ((host.length : ℤ) + i).toNat) := by
  constructor
  · intro h
    have h0 : 0 ≤ i := by omega
    have hs : sliceIdx host.length i = i.toNat := by simp [sliceIdx, h0]
    have hlen : host.length ≤ i.toNat := by omega
    simp [insert, hs, List.take_of_length_le hlen, List.drop_of_length_le hlen]
  · intro h
    have hne : ¬ 0 ≤ i := by omega
    simp [insert, sliceIdx, hne]

/-- C5 counterexample: inserting at index 3 into a host of length 2 returns
a result series (the clamped append) instead of raising an error. -/
theorem c5_counterexample : insert [5, 6] [7] (some 3) = [5, 6, 7] := by decide

/-- C5 witness for the amended statement at concrete inputs. -/
theorem c5_insert_out_of_range_witness :
    insert [1, 2] [9] (some 4) = [1, 2, 9] ∧ insert [1, 2] [9] (some (-1)) = [1, 9, 2] := by
  have h1 := (c5_insert_out_of_range [1, 2] [9] 4).1 (by decide)
  have h2 := (c5_insert_out_of_range [1, 2] [9] (-1)).2 (by decide)
  refine ⟨by rw [h1]; decide, by rw [h2]; decide⟩

/-- C4 witness: splicing at index 2 of a 3-element host. -/
theorem c4_insert_splice_witness : insert [10, 11, 12] [7, 8] (some 2) = [10, 11, 7, 8, 12] := by
  have h := c4_insert_splice [10, 11, 12] [7, 8] 2 (by decide) (by decide)
  rw [h.1]
  decide

/-- C6 counterexample: on the empty template AmplitudeShiftAnomaly generation
returns the empty series instead of raising an error. -/
theorem c6_counterexample : amplitudeShift_generate [] 1 = [] := rfl

/-- C6 (amended): AmplitudeShiftAnomaly generation is total: the empty
template yields the empty series (the NaN shift is absorbed by the empty
pointwise addition), and every template yields a series of the same length
with the constant shift (max - min) * ratio added to each element. -/
theorem c6_amplitudeShift_total (t : Series) (r : ℚ) :
    amplitudeShift_generate [] r = [] ∧
    (amplitudeShift_generate t r).length = t.length ∧
    ∀ i : ℕ, (amplitudeShift_generate t r)[i]? =
      t[i]?.map (fun x => x + (seriesMax t - seriesMin t) * r) := by
  exact ⟨rfl, by simp [amplitudeShift_generate], fun i => by simp [amplitudeShift_generate]⟩

/-- C7 counterexample: PointAnomaly generation with count = -1 returns the
empty series instead of raising an error. -/
theorem c7_counterexample :
    pointAnomaly_generate [0, 1] (1 / 3) (-1) (fun _ => 0) = [] := rfl

/-- C7 (amended): a negative count makes the generation loop run zero times,
so the result is the empty series; no error is raised. -/
theorem c7_point_negative_count (t : Series) (r : ℚ) (count : ℤ) (noise : ℕ → ℚ)
    (hc : count < 0) : pointAnomaly_generate t r count noise = [] := by
  have h0 : count.toNat = 0 := Int.toNat_of_nonpos (le_of_lt hc)
  simp [pointAnomaly_generate, pointBlocks, h0]

/-- C7 witness for the amended statement at count = -2. -/
theorem c7_point_negative_count_witness :
    pointAnomaly_generate [0, 1] (1 / 3) (-2) (fun _ => 0) = [] :=
  c7_point_negative_count [0, 1] (1 / 3) (-2) (fun _ => 0) (by decide)

/-- C1: with 0 < ratio ≤ 1, FrequencyShiftAnomaly generation succeeds with
stride floor(1/ratio) ≥ 1, returning every stride-th element of the template
starting at index 0 and reindexed from 0, of length ceil(length/stride)
(written (length + stride - 1) / stride in natural division); ratio = 1 gives
the template back unchanged. -/
theorem c1_frequencyShift_subsample (t : Series) (r : ℚ) (h0 : 0 < r) (h1 : r ≤ 1) :
    frequencyShift_generate t r = Except.ok (everyNth (⌊1 / r⌋.toNat) t) ∧
    1 ≤ ⌊1 / r⌋.toNat ∧
    (everyNth (⌊1 / r⌋.toNat) t).length =
      (t.length + (⌊1 / r⌋.toNat - 1)) / ⌊1 / r⌋.toNat ∧
    (∀ i : ℕ, (everyNth (⌊1 / r⌋.toNat) t)[i]? = t[i * ⌊1 / r⌋.toNat]?) ∧
    frequencyShift_generate t 1 = Except.ok t := by
  have hr : (1 : ℚ) ≤ 1 / r := by
    rw [le_div_iff₀ h0]
    linarith
  have hfl : 1 ≤ ⌊(1 : ℚ) / r⌋ := Int.le_floor.mpr (by exact_mod_cast hr)
  have hk : 1 ≤ ⌊(1 : ℚ) / r⌋.toNat := by omega
  refine ⟨?_, hk, everyNth_length _ hk t, fun i => everyNth_getElem _ hk t i, ?_⟩
  · unfold frequencyShift_generate
    rw [if_pos ⟨h0, h1⟩]
  · unfold frequencyShift_generate
    rw [if_pos (by norm_num : (0 : ℚ) < 1 ∧ (1 : ℚ) ≤ 1)]
    have hone : (⌊(1 : ℚ) / 1⌋).toNat = 1 := by norm_num
    rw [hone, everyNth_one]

/-- C1 witness: ratio 1/2 on a five-element template keeps every other
element. -/
theorem c1_frequencyShift_subsample_witness :
    frequencyShift_generate [3, 4, 5, 6, 7] (1 / 2) = Except.ok [3, 5, 7] := by
  have h := c1_frequencyShift_subsample [3, 4, 5, 6, 7] (1 / 2) (by norm_num) (by norm_num)
  rw [h.1]
  have hfl : (⌊(1 : ℚ) / (1 / 2)⌋) = 2 := by norm_num
  have h2 : (⌊(1 : ℚ) / (1 / 2)⌋).toNat = 2 := by rw [hfl]; rfl
  rw [h2]
  norm_num [everyNth_cons, everyNth_nil]

/-- C2 counterexample: with sigma = 0 but mu = 1, every draw equals 1, so the
first generated point is upper + 1 and not exactly max + mid as the claim
states. -/
theorem c2_counterexample :
    ¬ (pointAnomaly_generate [0, 1] 0 1 (normalDraws_sigmaZero 1))[0]? =
        some (seriesMax [0, 1] + (seriesMax [0, 1] - seriesMin [0, 1]) * 0) := by
  have hmax : seriesMax [0, 1] = 1 := by
    have hm : max (0 : ℚ) 1 = 1 := max_eq_right (by norm_num)
    simp [seriesMax, hm]
  have hmin : seriesMin [0, 1] = 0 := by
    have hm : min (0 : ℚ) 1 = 0 := min_eq_left (by norm_num)
    simp [seriesMin, hm]
  have hval : (pointAnomaly_generate [0, 1] 0 1 (normalDraws_sigmaZero 1))[0]? =
      some (seriesMax [0, 1] + (seriesMax [0, 1] - seriesMin [0, 1]) * 0 + 1) := by
    have h := (pointBlocks_getElem (seriesMax [0, 1] + (seriesMax [0, 1] - seriesMin [0, 1]) * 0)
      (seriesMin [0, 1] - (seriesMax [0, 1] - seriesMin [0, 1]) * 0)
      (normalDraws_sigmaZero 1) 1 0 (by norm_num)).1
    simpa [pointAnomaly_generate, normalDraws_sigmaZero] using h
  rw [hval, hmax, hmin]
  simp only [Option.some.injEq]
  norm_num

/-- C2 (amended): for a non-empty template and non-negative count, PointAnomaly
generation has length 2 * count and strictly alternates: even index 2i holds
upper = max + mid plus the draw consumed at that slot, odd index 2i+1 holds
lower = min - mid plus the next draw, pairs appended in order; with mu = 0 and
sigma = 0 the even values are exactly upper and the odd values exactly lower;
count = 0 gives the empty series. -/
theorem c2_point_pairs (t : Series) (r : ℚ) (count : ℤ) (noise : ℕ → ℚ)
    (ht : t ≠ []) (hc : 0 ≤ count) :
    (pointAnomaly_generate t r count noise).length = 2 * count.toNat ∧
    (∀ i : ℕ, (i : ℤ) < count →
      (pointAnomaly_generate t r count noise)[2 * i]? =
        some (seriesMax t + (seriesMax t - seriesMin t) * r + noise (2 * i)) ∧
      (pointAnomaly_generate t r count noise)[2 * i + 1]? =
        some (seriesMin t - (seriesMax t - seriesMin t) * r + noise (2 * i + 1))) ∧
    (∀ i : ℕ, (i : ℤ) < count →
      (pointAnomaly_generate t r count (normalDraws_sigmaZero 0))[2 * i]? =
        some (seriesMax t + (seriesMax t - seriesMin t) * r) ∧
      (pointAnomaly_generate t r count (normalDraws_sigmaZero 0))[2 * i + 1]? =
        some (seriesMin t - (seriesMax t - seriesMin t) * r)) ∧
    pointAnomaly_generate t r 0 noise = [] := by
  refine ⟨pointBlocks_length _ _ _ _, ?_, ?_, rfl⟩
  · intro i hi
    have him : i < count.toNat := by omega
    exact pointBlocks_getElem _ _ noise count.toNat i him
  · intro i hi
    have him : i < count.toNat := by omega
    have h := pointBlocks_getElem (seriesMax t + (seriesMax t - seriesMin t) * r)
      (seriesMin t - (seriesMax t - seriesMin t) * r) (normalDraws_sigmaZero 0)
      count.toNat i him
    simpa [normalDraws_sigmaZero] using h

/-- C2 witness at a concrete template, mu = 0, sigma = 0, count = 2. -/
theorem c2_point_pairs_witness :
    (pointAnomaly_generate [0, 1] (1 / 2) 2 (normalDraws_sigmaZero 0)).length = 4 := by
  have h := c2_point_pairs [0, 1] (1 / 2) 2 (normalDraws_sigmaZero 0) (by decide) (by decide)
  simpa using h.1

end Tsag
